import Mathlib

/-!
Shallow embedding of the code-generation core in
`src/crates/hopper65/src/block.rs` (crate `hopper65`), together with proofs
of the specified properties of `State::add_patch`, `State::sets_at` and
`State::on`.

Modelling conventions:
* `Reg` is the three-register enum from `lib.rs`.
* Rust `u32` indices and `fwd` counters are modelled as `Nat` (no arithmetic
  in the code can overflow a `u32` on inputs satisfying the documented
  preconditions; the one truncating subtraction, `insts.len() + 1 - orig`,
  is dealt with explicitly in the totality theorem).
* `BTreeMap<V, (Reg, u32)>` is modelled as an association list
  `List (V × Reg × Nat)` with `mapLookup` (= `get`) and `mapInsert`
  (= `insert`, replacing the binding of an existing key in place).
* `Vec<Inst>` is `List Inst`; in-place mutation is translated to functional
  update: `insert` is `List.insertIdx`, `push` is `· ++ [x]`, and the
  `for`-loop bumping `fwd` fields of `self.insts[..orig]` is
  `(·.take orig).map bumpStoreArg ++ ·.drop orig`.
* `BTreeSet<State<V>>` collected from the branch iterator is modelled as the
  `List` of branch results; claims about set cardinality are phrased through
  `List.dedup` (set size = length of the deduplicated list).
-/

namespace Hopper65

/-- The register set of the target machine (`Reg` in `lib.rs`). -/
inductive Reg : Type
  | A : Reg
  | X : Reg
  | Y : Reg
deriving DecidableEq, Repr

/-- The instruction shapes (`Inst` in `block.rs`).  `StoreArg` is the
deferred self-modifying store, `LoadConst` an immediate load, `Transfer` a
register-to-register copy. -/
inductive Inst : Type
  | StoreArg (reg : Reg) (fwd : Nat) : Inst
  | LoadConst (reg : Reg) (value : Nat) : Inst
  | Transfer (f : Reg) (t : Reg) : Inst
deriving DecidableEq, Repr

/-- The operation consumed by the transition function (`Op` in `block.rs`). -/
inductive Op (V : Type) : Type
  | Just (v : V) : Op V
  | Const (a : Nat) : Op V
deriving DecidableEq

/-- The machine-state snapshot (`State` in `block.rs`): a residency map from
logical values to `(register, defining-instruction index)` plus the
instruction sequence emitted so far. -/
structure State (V : Type) : Type where
  regmap : List (V × Reg × Nat)
  insts : List Inst
deriving DecidableEq, Repr

variable {V : Type} [DecidableEq V]

/-- Models `BTreeMap::get`: the value bound to key `k`, if any. -/
def mapLookup (k : V) : List (V × Reg × Nat) → Option (Reg × Nat)
  | [] => none
  | (q, val) :: rest => if k = q then some val else mapLookup k rest

/-- Models `BTreeMap::insert`: replace the binding of `k` (keeping its position) or
append a fresh binding. -/
def mapInsert (k : V) (val : Reg × Nat) : List (V × Reg × Nat) → List (V × Reg × Nat)
  | [] => [(k, val)]
  | (q, w) :: rest => if k = q then (k, val) :: rest else (q, w) :: mapInsert k val rest

/-- The `for`-loop body of `add_patch`: `if let Inst::StoreArg { fwd, .. } = i
\x7b *fwd += 1; \x7d`. -/
def bumpStoreArg : Inst → Inst
  | Inst.StoreArg r f => Inst.StoreArg r (f + 1)
  | i => i

/-- Models `State::add_patch(orig, reg, target)` from `block.rs`: insert
`StoreArg { reg, fwd: len + 1 - orig }` at `orig`, append
`LoadConst { reg: target, value: 0 }`, bump the `fwd` of every `StoreArg`
strictly before `orig`, and renumber every residency index `>= orig`. -/
def add_patch (s : State V) (orig : Nat) (reg target : Reg) : State V :=
  let l := s.insts.length + 1 - orig
  let i1 := s.insts.insertIdx orig (Inst.StoreArg reg l)
  let i2 := i1 ++ [Inst.LoadConst target 0]
  let i3 := (i2.take orig).map bumpStoreArg ++ i2.drop orig
  { regmap := s.regmap.map fun p => (p.1, p.2.1, if orig ≤ p.2.2 then p.2.2 + 1 else p.2.2),
    insts := i3 }

/-- The instruction test inside the loop of `State::sets_at`: a `LoadConst`
into `reg`, or a `Transfer` into `reg` from a different register. -/
def setsReg (reg : Reg) : Inst → Bool
  | Inst.LoadConst r _ => decide (r = reg)
  | Inst.Transfer f t => decide (t = reg) && ! decide (f = reg)
  | _ => false

/-- The loop of `State::sets_at`, indexed by the number `c` of iterations
left: iteration `c+1` inspects `insts[lim + c]` and either returns `true` or
continues downward; `c = 0` means `idx == lim` was reached. -/
def sets_at_go (insts : List Inst) (reg : Reg) (lim : Nat) : Nat → Bool
  | 0 => false
  | c + 1 =>
    match insts[lim + c]? with
    | some i => if setsReg reg i then true else sets_at_go insts reg lim c
    | none => sets_at_go insts reg lim c

/-- Models `State::sets_at(lim, reg)` from `block.rs`: scan backward over index
range `[lim, len)` for an instruction that sets `reg`. -/
def sets_at (s : State V) (lim : Nat) (reg : Reg) : Bool :=
  sets_at_go s.insts reg lim (s.insts.length - lim)

/-- A step-faithful rendering of the `sets_at` loop used for the totality
claim: `idx` is the loop counter, the fuel bounds the iterations, and `none`
is returned on fuel exhaustion, on an underflowing `idx -= 1` (`idx = 0`
with `idx ≠ lim`), or on an out-of-bounds access `insts[idx - 1]`. -/
def sets_at_loop (insts : List Inst) (reg : Reg) (lim : Nat) : Nat → Nat → Option Bool
  | _, 0 => none
  | idx, fuel + 1 =>
    if idx = lim then some false
    else if idx = 0 then none
    else
      match insts[idx - 1]? with
      | none => none
      | some i =>
        if setsReg reg i then some true else sets_at_loop insts reg lim (idx - 1) fuel

/-- Models `State::on(this, op)` from `block.rs`, with the `BTreeSet` of successor
snapshots modelled as the list of branch results (`name` is the parameter
called `this` in the source). -/
def onOp (s : State V) (name : V) (op : Op V) : List (State V) :=
  match op with
  | Op.Just v =>
    match mapLookup v s.regmap with
    | some (r0, i0) =>
      if sets_at s i0 r0 then
        [Reg.A, Reg.X, Reg.Y].map fun r =>
          let n : State V :=
            if sets_at s i0 r then add_patch s i0 r0 r
            else { s with insts := s.insts ++ [Inst.Transfer r0 r] }
          { n with regmap := mapInsert name (r, n.insts.length - 1) n.regmap }
      else
        [{ s with regmap := mapInsert name (r0, i0) s.regmap }]
    | none => []
  | Op.Const a =>
    [Reg.A, Reg.X, Reg.Y].map fun r =>
      let n : State V := { s with insts := s.insts ++ [Inst.LoadConst r a] }
      { n with regmap := mapInsert name (r, n.insts.length - 1) n.regmap }

/-- Whether an instruction establishes residency in `reg` in the sense of the
Snapshot invariant: a `LoadConst` into `reg` or a `Transfer` whose target is
`reg`. -/
def establishesB (reg : Reg) : Inst → Bool
  | Inst.LoadConst r _ => decide (r = reg)
  | Inst.Transfer _ t => decide (t = reg)
  | _ => false

/-- One residency entry is structurally valid: its index is in bounds and
the instruction there establishes its register. -/
def entryOK (insts : List Inst) (p : V × Reg × Nat) : Bool :=
  (insts[p.2.2]?.map (establishesB p.2.1)).getD false

/-- The Snapshot invariant: every residency entry is structurally valid. -/
def InvariantB (s : State V) : Bool :=
  s.regmap.all (entryOK s.insts)

/-! ### Generic helper lemmas -/

theorem getElem?_some_lt {α : Type} {l : List α} {n : Nat} {a : α}
    (h : l[n]? = some a) : n < l.length := by
  by_contra hc
  rw [List.getElem?_eq_none (by omega)] at h
  exact Option.noConfusion h

theorem mapLookup_mem {k : V} {val : Reg × Nat} :
    ∀ {m : List (V × Reg × Nat)}, mapLookup k m = some val → (k, val) ∈ m
  | [], h => by simp [mapLookup] at h
  | (q, w) :: rest, h => by
    by_cases hk : k = q
    · subst hk
      rw [mapLookup, if_pos rfl] at h
      injection h with h2
      subst h2
      exact List.mem_cons_self _ _
    · rw [mapLookup, if_neg hk] at h
      exact List.mem_cons_of_mem _ (mapLookup_mem h)

theorem mem_mapInsert {k : V} {val : Reg × Nat} {p : V × Reg × Nat} :
    ∀ {m : List (V × Reg × Nat)}, p ∈ mapInsert k val m → p = (k, val) ∨ p ∈ m
  | [], h => by simpa [mapInsert] using h
  | (q, w) :: rest, h => by
    by_cases hk : k = q
    · subst hk
      rw [mapInsert, if_pos rfl] at h
      rcases List.mem_cons.mp h with h2 | h2
      · exact Or.inl h2
      · exact Or.inr (List.mem_cons_of_mem _ h2)
    · rw [mapInsert, if_neg hk] at h
      rcases List.mem_cons.mp h with h2 | h2
      · exact Or.inr (by simp [h2])
      · rcases mem_mapInsert h2 with h3 | h3
        · exact Or.inl h3
        · exact Or.inr (List.mem_cons_of_mem _ h3)

theorem mapLookup_mapInsert_self (k : V) (val : Reg × Nat) :
    ∀ (m : List (V × Reg × Nat)), mapLookup k (mapInsert k val m) = some val
  | [] => by simp [mapInsert, mapLookup]
  | (q, w) :: rest => by
    by_cases hk : k = q
    · subst hk
      simp [mapInsert, mapLookup]
    · rw [mapInsert, if_neg hk, mapLookup, if_neg hk]
      exact mapLookup_mapInsert_self k val rest

theorem mapLookup_map_val (k : V) (f : Reg × Nat → Reg × Nat) :
    ∀ (m : List (V × Reg × Nat)),
      mapLookup k (m.map fun p => (p.1, f p.2)) = (mapLookup k m).map f
  | [] => rfl
  | (q, w) :: rest => by
    by_cases hk : k = q
    · subst hk
      simp [mapLookup]
    · simp only [List.map_cons, mapLookup, if_neg hk]
      exact mapLookup_map_val k f rest

theorem insertIdx_eq_take_cons_drop (x : Inst) :
    ∀ (n : Nat) (l : List Inst), n ≤ l.length →
      l.insertIdx n x = l.take n ++ x :: l.drop n
  | 0, l, _ => by simp
  | n + 1, [], h => by simp at h
  | n + 1, a :: l, h => by
    simpa [List.insertIdx_succ_cons] using
      insertIdx_eq_take_cons_drop x n l (by simpa using h)

theorem establishesB_bump (r : Reg) (i : Inst) :
    establishesB r (bumpStoreArg i) = establishesB r i := by
  cases i <;> rfl

theorem bumpStoreArg_eq_transfer {f r : Reg} {i : Inst}
    (h : bumpStoreArg i = Inst.Transfer f r) : i = Inst.Transfer f r := by
  cases i <;> simpa [bumpStoreArg] using h

theorem entryOK_intro {insts : List Inst} {p : V × Reg × Nat} {inst : Inst}
    (h1 : insts[p.2.2]? = some inst) (h2 : establishesB p.2.1 inst = true) :
    entryOK insts p = true := by
  simp [entryOK, h1, h2]

theorem entryOK_some {insts : List Inst} {p : V × Reg × Nat}
    (h : entryOK insts p = true) :
    ∃ inst, insts[p.2.2]? = some inst ∧ establishesB p.2.1 inst = true := by
  unfold entryOK at h
  rcases he : insts[p.2.2]? with _ | inst
  · rw [he] at h
    simp at h
  · rw [he] at h
    simp only [Option.map_some', Option.getD_some] at h
    exact ⟨inst, rfl, h⟩

theorem entryOK_append (insts l2 : List Inst) (p : V × Reg × Nat)
    (h : entryOK insts p = true) : entryOK (insts ++ l2) p = true := by
  obtain ⟨inst, hsome, hest⟩ := entryOK_some h
  exact entryOK_intro (by rw [List.getElem?_append_left (getElem?_some_lt hsome)]; exact hsome) hest

theorem InvariantB_eq_true_iff (s : State V) :
    InvariantB s = true ↔ ∀ p ∈ s.regmap, entryOK s.insts p = true := by
  simp [InvariantB, List.all_eq_true]

/-! ### Structure of `add_patch` -/

theorem add_patch_regmap (s : State V) (orig : Nat) (src dst : Reg) :
    (add_patch s orig src dst).regmap =
      s.regmap.map fun p => (p.1, p.2.1, if orig ≤ p.2.2 then p.2.2 + 1 else p.2.2) := rfl

theorem add_patch_insts_eq (s : State V) (orig : Nat) (src dst : Reg)
    (h : orig ≤ s.insts.length) :
    (add_patch s orig src dst).insts =
      (s.insts.take orig).map bumpStoreArg ++
        Inst.StoreArg src (s.insts.length + 1 - orig) ::
          (s.insts.drop orig ++ [Inst.LoadConst dst 0]) := by
  have hlen : (s.insts.take orig).length = orig := by
    rw [List.length_take]
    exact Nat.min_eq_left h
  show ((s.insts.insertIdx orig (Inst.StoreArg src (s.insts.length + 1 - orig)) ++
      [Inst.LoadConst dst 0]).take orig).map bumpStoreArg ++
      (s.insts.insertIdx orig (Inst.StoreArg src (s.insts.length + 1 - orig)) ++
      [Inst.LoadConst dst 0]).drop orig = _
  rw [insertIdx_eq_take_cons_drop _ orig s.insts h, List.append_assoc, List.cons_append,
    List.take_left' hlen, List.drop_left' hlen]

theorem add_patch_length (s : State V) (orig : Nat) (src dst : Reg)
    (h : orig ≤ s.insts.length) :
    (add_patch s orig src dst).insts.length = s.insts.length + 2 := by
  rw [add_patch_insts_eq s orig src dst h]
  simp [List.length_take, Nat.min_eq_left h]
  omega

theorem add_patch_getElem_lt (s : State V) (orig : Nat) (src dst : Reg) (i : Nat)
    (h : orig ≤ s.insts.length) (hi : i < orig) :
    (add_patch s orig src dst).insts[i]? = (s.insts[i]?).map bumpStoreArg := by
  rw [add_patch_insts_eq s orig src dst h]
  have hlen : ((s.insts.take orig).map bumpStoreArg).length = orig := by
    rw [List.length_map, List.length_take]
    exact Nat.min_eq_left h
  rw [List.getElem?_append_left (by rw [hlen]; exact hi), List.getElem?_map,
    List.getElem?_take_of_lt hi]

theorem add_patch_getElem_ge (s : State V) (orig : Nat) (src dst : Reg) (i : Nat)
    (h : orig ≤ s.insts.length) (hi : orig ≤ i) (hlt : i < s.insts.length) :
    (add_patch s orig src dst).insts[i + 1]? = s.insts[i]? := by
  rw [add_patch_insts_eq s orig src dst h]
  have hlen : ((s.insts.take orig).map bumpStoreArg).length = orig := by
    rw [List.length_map, List.length_take]
    exact Nat.min_eq_left h
  rw [List.getElem?_append_right (by omega)]
  have hsh : i + 1 - ((s.insts.take orig).map bumpStoreArg).length = (i - orig) + 1 := by
    omega
  rw [hsh, List.getElem?_cons_succ,
    List.getElem?_append_left (by simp [List.length_drop]; omega), List.getElem?_drop]
  congr 1
  omega

theorem add_patch_getElem_last (s : State V) (orig : Nat) (src dst : Reg)
    (h : orig ≤ s.insts.length) :
    (add_patch s orig src dst).insts[s.insts.length + 1]? =
      some (Inst.LoadConst dst 0) := by
  rw [add_patch_insts_eq s orig src dst h]
  have hlen : ((s.insts.take orig).map bumpStoreArg).length = orig := by
    rw [List.length_map, List.length_take]
    exact Nat.min_eq_left h
  rw [List.getElem?_append_right (by omega)]
  have hsh : s.insts.length + 1 - ((s.insts.take orig).map bumpStoreArg).length =
      (s.insts.length - orig) + 1 := by
    omega
  rw [hsh, List.getElem?_cons_succ]
  have hdl : s.insts.length - orig = (s.insts.drop orig).length := by
    simp [List.length_drop]
  rw [hdl, List.getElem?_concat_length]

/-! ### Characterisation of the backward liveness scan -/

theorem setsReg_eq_true_iff (reg : Reg) (inst : Inst) :
    setsReg reg inst = true ↔
      (∃ w, inst = Inst.LoadConst reg w) ∨ ∃ f, inst = Inst.Transfer f reg ∧ f ≠ reg := by
  cases inst with
  | StoreArg r w => simp [setsReg]
  | LoadConst r w =>
    simp only [setsReg, decide_eq_true_eq, Inst.LoadConst.injEq]
    constructor
    · rintro rfl
      exact Or.inl ⟨w, rfl, rfl⟩
    · rintro (⟨w2, hr, _⟩ | ⟨f, hf, _⟩)
      · exact hr
      · exact absurd hf (by simp)
  | Transfer f t =>
    simp only [setsReg, Bool.and_eq_true, decide_eq_true_eq, Bool.not_eq_true',
      decide_eq_false_iff_not, Inst.Transfer.injEq]
    constructor
    · rintro ⟨rfl, hf⟩
      exact Or.inr ⟨f, ⟨rfl, rfl⟩, hf⟩
    · rintro (⟨w2, hw⟩ | ⟨f2, ⟨hf2, ht2⟩, hne⟩)
      · exact absurd hw (by simp)
      · subst hf2
        subst ht2
        exact ⟨rfl, hne⟩

theorem sets_at_go_eq_true_iff (insts : List Inst) (reg : Reg) (lim : Nat) :
    ∀ c : Nat, sets_at_go insts reg lim c = true ↔
      ∃ j, j < c ∧ ∃ inst, insts[lim + j]? = some inst ∧ setsReg reg inst = true
  | 0 => by simp [sets_at_go]
  | c + 1 => by
    have ih := sets_at_go_eq_true_iff insts reg lim c
    rw [sets_at_go]
    rcases he : insts[lim + c]? with _ | i
    · simp only [he]
      rw [ih]
      constructor
      · rintro ⟨j, hj, hw⟩
        exact ⟨j, by omega, hw⟩
      · rintro ⟨j, hj, inst, hsome, hset⟩
        refine ⟨j, ?_, inst, hsome, hset⟩
        rcases Nat.lt_succ_iff_lt_or_eq.mp hj with h2 | h2
        · exact h2
        · subst h2
          rw [he] at hsome
          exact absurd hsome (by simp)
    · simp only [he]
      by_cases hs : setsReg reg i = true
      · simp only [hs, if_true, true_iff]
        exact ⟨c, Nat.lt_succ_self c, i, he, hs⟩
      · rw [if_neg hs, ih]
        constructor
        · rintro ⟨j, hj, hw⟩
          exact ⟨j, by omega, hw⟩
        · rintro ⟨j, hj, inst, hsome, hset⟩
          refine ⟨j, ?_, inst, hsome, hset⟩
          rcases Nat.lt_succ_iff_lt_or_eq.mp hj with h2 | h2
          · exact h2
          · subst h2
            rw [he] at hsome
            injection hsome with h3
            subst h3
            exact absurd hset hs

theorem sets_at_loop_eq (insts : List Inst) (reg : Reg) (lim : Nat) :
    ∀ (fuel idx : Nat), lim ≤ idx → idx ≤ insts.length → idx - lim < fuel →
      sets_at_loop insts reg lim idx fuel = some (sets_at_go insts reg lim (idx - lim))
  | 0, _, _, _, h3 => absurd h3 (by omega)
  | fuel + 1, idx, h1, h2, h3 => by
    rw [sets_at_loop]
    by_cases he : idx = lim
    · subst he
      simp [sets_at_go]
    · have hpos : 0 < idx := by omega
      rw [if_neg he, if_neg (by omega)]
      have hlt : idx - 1 < insts.length := by omega
      have ha : insts[idx - 1]? = some insts[idx - 1] := List.getElem?_eq_getElem hlt
      simp only [ha]
      have hc : idx - lim = (idx - 1 - lim) + 1 := by omega
      rw [hc, sets_at_go]
      have hidx : lim + (idx - 1 - lim) = idx - 1 := by omega
      simp only [hidx, ha]
      by_cases hs : setsReg reg insts[idx - 1] = true
      · rw [if_pos hs, if_pos hs]
      · rw [if_neg hs, if_neg hs]
        exact sets_at_loop_eq insts reg lim fuel (idx - 1) (by omega) (by omega) (by omega)

/-- C5: for `lim ≤ len`, `sets_at s lim reg` is true iff some index in the
range `[lim, len)` holds a `LoadConst` into `reg` or a `Transfer` into `reg`
from a different register; an instruction exactly at `lim` counts, and the
empty range (`lim = len`) gives false. -/
theorem sets_at_spec (s : State V) (lim : Nat) (reg : Reg)
    (h : lim ≤ s.insts.length) :
    sets_at s lim reg = true ↔
      ∃ i, lim ≤ i ∧ i < s.insts.length ∧ ∃ inst, s.insts[i]? = some inst ∧
        ((∃ w, inst = Inst.LoadConst reg w) ∨ ∃ f, inst = Inst.Transfer f reg ∧ f ≠ reg) := by
  unfold sets_at
  rw [sets_at_go_eq_true_iff]
  constructor
  · rintro ⟨j, hj, inst, hsome, hset⟩
    exact ⟨lim + j, by omega, getElem?_some_lt hsome, inst, hsome,
      (setsReg_eq_true_iff reg inst).mp hset⟩
  · rintro ⟨i, hli, hlen2, inst, hsome, hdis⟩
    refine ⟨i - lim, by omega, inst, ?_, (setsReg_eq_true_iff reg inst).mpr hdis⟩
    rw [show lim + (i - lim) = i by omega]
    exact hsome

/-- Witness for C5 at a concrete snapshot: `lim = 0` on a one-instruction
sequence `[LoadConst A 5]`. -/
theorem sets_at_spec_witness :
    0 ≤ (({ regmap := [], insts := [Inst.LoadConst Reg.A 5] } : State Nat)).insts.length ∧
      (sets_at ({ regmap := [], insts := [Inst.LoadConst Reg.A 5] } : State Nat) 0 Reg.A = true ↔
        ∃ i, 0 ≤ i ∧
          i < (({ regmap := [], insts := [Inst.LoadConst Reg.A 5] } : State Nat)).insts.length ∧
          ∃ inst,
            (({ regmap := [], insts := [Inst.LoadConst Reg.A 5] } : State Nat)).insts[i]? =
              some inst ∧
            ((∃ w, inst = Inst.LoadConst Reg.A w) ∨
              ∃ f, inst = Inst.Transfer f Reg.A ∧ f ≠ Reg.A)) :=
  ⟨by decide, sets_at_spec _ 0 Reg.A (by decide)⟩

/-- C9: on a well-formed input (`lim ≤ len`, `orig ≤ len`) the backward scan
terminates with no out-of-bounds access and no underflowing `idx - 1`
(witnessed by the instrumented loop returning `some` of the scan result with
`len - lim + 1` fuel), the subtraction `len + 1 - orig` in `add_patch` does
not truncate, and `add_patch` totally produces its two-instruction
extension. -/
theorem sets_at_add_patch_total (s : State V) (lim orig : Nat) (reg src dst : Reg)
    (h1 : lim ≤ s.insts.length) (h2 : orig ≤ s.insts.length) :
    sets_at_loop s.insts reg lim s.insts.length (s.insts.length - lim + 1) =
        some (sets_at s lim reg) ∧
      orig + (s.insts.length + 1 - orig) = s.insts.length + 1 ∧
      (add_patch s orig src dst).insts.length = s.insts.length + 2 := by
  refine ⟨?_, by omega, add_patch_length s orig src dst h2⟩
  unfold sets_at
  exact sets_at_loop_eq s.insts reg lim _ _ h1 le_rfl (by omega)

/-- Witness for C9 at a concrete snapshot. -/
theorem sets_at_add_patch_total_witness :
    1 ≤ 2 ∧ 2 ≤ 2 ∧
      (sets_at_loop [Inst.LoadConst Reg.A 5, Inst.StoreArg Reg.X 1] Reg.A 1 2 2 =
          some (sets_at
            (State.mk [] [Inst.LoadConst Reg.A 5, Inst.StoreArg Reg.X 1] : State Nat) 1 Reg.A) ∧
        2 + (2 + 1 - 2) = 2 + 1 ∧
        (add_patch (State.mk [] [Inst.LoadConst Reg.A 5, Inst.StoreArg Reg.X 1] : State Nat) 2
            Reg.A Reg.X).insts.length = 2 + 2) :=
  ⟨by decide, by decide,
    sets_at_add_patch_total
      (State.mk [] [Inst.LoadConst Reg.A 5, Inst.StoreArg Reg.X 1] : State Nat) 1 2 Reg.A Reg.A
      Reg.X (by decide) (by decide)⟩

/-- C8: a `Just` request for a logical value with no residency entry yields
the empty successor set. -/
theorem onOp_unknown_reuse_empty (s : State V) (name v : V)
    (h : mapLookup v s.regmap = none) : onOp s name (Op.Just v) = [] := by
  simp [onOp, h]

/-- Witness for C8: reuse of an unknown value on the empty snapshot. -/
theorem onOp_unknown_reuse_empty_witness :
    mapLookup 1 (({ regmap := [], insts := [] } : State Nat)).regmap = none ∧
      onOp ({ regmap := [], insts := [] } : State Nat) 0 (Op.Just 1) = [] :=
  ⟨rfl, onOp_unknown_reuse_empty _ 0 1 rfl⟩

/-- C6: free-reuse fast path: if `v` is resident at `(reg, idx)` and nothing
sets `reg` in `[idx, len)`, then `onOp` returns exactly one successor, with
the same instruction sequence and `name` additionally bound to
`(reg, idx)`. -/
theorem onOp_free_reuse_single (s : State V) (name v : V) (reg : Reg) (idx : Nat)
    (h1 : mapLookup v s.regmap = some (reg, idx))
    (h2 : sets_at s idx reg = false) :
    onOp s name (Op.Just v) =
      [{ regmap := mapInsert name (reg, idx) s.regmap, insts := s.insts }] := by
  simp [onOp, h1, h2]

/-- Witness for C6: value 0 resident in A at index 1 of
`[LoadConst A 5, Transfer A A]`; the self-transfer at index 1 does not set
A, so the reuse is free. -/
theorem onOp_free_reuse_single_witness :
    mapLookup 0 (State.mk [(0, Reg.A, 1)]
        [Inst.LoadConst Reg.A 5, Inst.Transfer Reg.A Reg.A] : State Nat).regmap =
      some (Reg.A, 1) ∧
      sets_at (State.mk [(0, Reg.A, 1)]
        [Inst.LoadConst Reg.A 5, Inst.Transfer Reg.A Reg.A] : State Nat) 1 Reg.A = false ∧
      onOp (State.mk [(0, Reg.A, 1)]
          [Inst.LoadConst Reg.A 5, Inst.Transfer Reg.A Reg.A] : State Nat) 7 (Op.Just 0) =
        [State.mk (mapInsert 7 (Reg.A, 1) [(0, Reg.A, 1)])
          [Inst.LoadConst Reg.A 5, Inst.Transfer Reg.A Reg.A]] :=
  ⟨by decide, by decide, onOp_free_reuse_single _ 7 0 Reg.A 1 (by decide) (by decide)⟩

/-- C3: for `orig ≤ n` (`n` the old instruction count), the patched
instruction sequence is: the old instructions before `orig` with every
`StoreArg` (deferred store) bumped by one, then the inserted
`StoreArg src (n + 1 - orig)` at position `orig`, then the old instructions
from `orig` onward unchanged, then the appended `LoadConst dst 0`. -/
theorem add_patch_shape (s : State V) (orig : Nat) (src dst : Reg)
    (h : orig ≤ s.insts.length) :
    (add_patch s orig src dst).insts =
      (s.insts.take orig).map bumpStoreArg ++
        Inst.StoreArg src (s.insts.length + 1 - orig) ::
          (s.insts.drop orig ++ [Inst.LoadConst dst 0]) :=
  add_patch_insts_eq s orig src dst h

/-- Witness for C3: patching at `orig = 1` of a two-instruction sequence
whose first instruction is itself a `StoreArg` (so the bump is visible). -/
theorem add_patch_shape_witness :
    1 ≤ 2 ∧
      (add_patch (State.mk [] [Inst.StoreArg Reg.A 2, Inst.LoadConst Reg.X 7] : State Nat) 1
          Reg.A Reg.Y).insts =
        ([Inst.StoreArg Reg.A 2, Inst.LoadConst Reg.X 7].take 1).map bumpStoreArg ++
          Inst.StoreArg Reg.A (2 + 1 - 1) ::
            ([Inst.StoreArg Reg.A 2, Inst.LoadConst Reg.X 7].drop 1 ++
              [Inst.LoadConst Reg.Y 0]) :=
  ⟨by decide,
    add_patch_shape (State.mk [] [Inst.StoreArg Reg.A 2, Inst.LoadConst Reg.X 7] : State Nat) 1
      Reg.A Reg.Y (by decide)⟩

/-- C4: `add_patch` keeps every residency key (nothing added or removed),
leaves indices `< orig` unchanged, increments indices `>= orig` by exactly
one, and grows the instruction count by exactly two. -/
theorem add_patch_frame (s : State V) (orig : Nat) (src dst : Reg)
    (h : orig ≤ s.insts.length) :
    (∀ k : V, mapLookup k (add_patch s orig src dst).regmap =
        (mapLookup k s.regmap).map fun q => (q.1, if orig ≤ q.2 then q.2 + 1 else q.2)) ∧
      (add_patch s orig src dst).regmap.length = s.regmap.length ∧
      (add_patch s orig src dst).insts.length = s.insts.length + 2 := by
  refine ⟨?_, by rw [add_patch_regmap]; simp, add_patch_length s orig src dst h⟩
  intro k
  rw [add_patch_regmap]
  exact mapLookup_map_val k (fun q => (q.1, if orig ≤ q.2 then q.2 + 1 else q.2)) s.regmap

/-- Witness for C4: one residency index below `orig`, one at `orig`. -/
theorem add_patch_frame_witness :
    1 ≤ 2 ∧
      ((∀ k : Nat, mapLookup k (add_patch (State.mk [(0, Reg.A, 0), (1, Reg.X, 1)]
            [Inst.LoadConst Reg.A 1, Inst.LoadConst Reg.X 2] : State Nat) 1 Reg.X
            Reg.Y).regmap =
          (mapLookup k [(0, Reg.A, 0), (1, Reg.X, 1)]).map fun q =>
            (q.1, if 1 ≤ q.2 then q.2 + 1 else q.2)) ∧
        (add_patch (State.mk [(0, Reg.A, 0), (1, Reg.X, 1)]
            [Inst.LoadConst Reg.A 1, Inst.LoadConst Reg.X 2] : State Nat) 1 Reg.X
            Reg.Y).regmap.length = [(0, Reg.A, 0), (1, Reg.X, 1)].length ∧
        (add_patch (State.mk [(0, Reg.A, 0), (1, Reg.X, 1)]
            [Inst.LoadConst Reg.A 1, Inst.LoadConst Reg.X 2] : State Nat) 1 Reg.X
            Reg.Y).insts.length = [Inst.LoadConst Reg.A 1, Inst.LoadConst Reg.X 2].length + 2) :=
  ⟨by decide,
    add_patch_frame (State.mk [(0, Reg.A, 0), (1, Reg.X, 1)]
      [Inst.LoadConst Reg.A 1, Inst.LoadConst Reg.X 2] : State Nat) 1 Reg.X Reg.Y (by decide)⟩

/-- Two snapshots whose instruction sequences end in different instructions
are distinct. -/
theorem mk_ne_of_last_ne {m1 m2 : List (V × Reg × Nat)} {l : List Inst} {x y : Inst}
    (hxy : x ≠ y) : State.mk m1 (l ++ [x]) ≠ State.mk m2 (l ++ [y]) := by
  intro h
  have h2 : l ++ [x] = l ++ [y] := congrArg State.insts h
  exact hxy (by simpa using h2)

/-- C7: `Const` fans out to exactly three successors, one per register: each
appends a single `LoadConst r a` to the unchanged sequence and binds `name`
to `(r, index of the appended instruction)`; the three snapshots are
pairwise distinct, so the deduplicated set has exactly 3 elements. -/
theorem onOp_const_fanout (s : State V) (name : V) (a : Nat) :
    onOp s name (Op.Const a) =
        [State.mk (mapInsert name (Reg.A, s.insts.length) s.regmap)
            (s.insts ++ [Inst.LoadConst Reg.A a]),
          State.mk (mapInsert name (Reg.X, s.insts.length) s.regmap)
            (s.insts ++ [Inst.LoadConst Reg.X a]),
          State.mk (mapInsert name (Reg.Y, s.insts.length) s.regmap)
            (s.insts ++ [Inst.LoadConst Reg.Y a])] ∧
      (onOp s name (Op.Const a)).dedup.length = 3 := by
  have he : onOp s name (Op.Const a) =
      [State.mk (mapInsert name (Reg.A, s.insts.length) s.regmap)
          (s.insts ++ [Inst.LoadConst Reg.A a]),
        State.mk (mapInsert name (Reg.X, s.insts.length) s.regmap)
          (s.insts ++ [Inst.LoadConst Reg.X a]),
        State.mk (mapInsert name (Reg.Y, s.insts.length) s.regmap)
          (s.insts ++ [Inst.LoadConst Reg.Y a])] := by
    simp [onOp]
  refine ⟨he, ?_⟩
  have hnd : ([State.mk (mapInsert name (Reg.A, s.insts.length) s.regmap)
        (s.insts ++ [Inst.LoadConst Reg.A a]),
      State.mk (mapInsert name (Reg.X, s.insts.length) s.regmap)
        (s.insts ++ [Inst.LoadConst Reg.X a]),
      State.mk (mapInsert name (Reg.Y, s.insts.length) s.regmap)
        (s.insts ++ [Inst.LoadConst Reg.Y a])] : List (State V)).Nodup := by
    refine List.nodup_cons.2 ⟨?_, List.nodup_cons.2 ⟨?_, List.nodup_cons.2 ⟨?_, List.nodup_nil⟩⟩⟩
    · intro hmem
      rcases List.mem_cons.mp hmem with h1 | hmem2
      · exact mk_ne_of_last_ne (by simp) h1
      · rcases List.mem_cons.mp hmem2 with h1 | hmem3
        · exact mk_ne_of_last_ne (by simp) h1
        · simp at hmem3
    · intro hmem
      rcases List.mem_cons.mp hmem with h1 | hmem2
      · exact mk_ne_of_last_ne (by simp) h1
      · simp at hmem2
    · simp
  rw [he, List.dedup_eq_self.2 hnd]
  rfl

/-- C2: clobbered reuse: if `v` is resident at `(r0, i0)` and something sets
`r0` in `[i0, len)`, the result explores the three registers — patching via
`add_patch` when the candidate register is also set since `i0`, otherwise
appending a `Transfer` — and binds `name` to `(r, last index)` in each
branch; the deduplicated successor set has between 1 and 3 elements and
every successor's newly bound register is one of the three. -/
theorem onOp_clobbered_reuse (s : State V) (name v : V) (r0 : Reg) (i0 : Nat)
    (h1 : mapLookup v s.regmap = some (r0, i0))
    (h2 : sets_at s i0 r0 = true) :
    onOp s name (Op.Just v) =
        ([Reg.A, Reg.X, Reg.Y].map fun r =>
          let n : State V :=
            if sets_at s i0 r then add_patch s i0 r0 r
            else State.mk s.regmap (s.insts ++ [Inst.Transfer r0 r])
          State.mk (mapInsert name (r, n.insts.length - 1) n.regmap) n.insts) ∧
      1 ≤ (onOp s name (Op.Just v)).dedup.length ∧
      (onOp s name (Op.Just v)).dedup.length ≤ 3 ∧
      ∀ t ∈ onOp s name (Op.Just v),
        ∃ r, (r = Reg.A ∨ r = Reg.X ∨ r = Reg.Y) ∧
          mapLookup name t.regmap = some (r, t.insts.length - 1) := by
  have he : onOp s name (Op.Just v) =
      [Reg.A, Reg.X, Reg.Y].map fun r =>
        let n : State V :=
          if sets_at s i0 r then add_patch s i0 r0 r
          else State.mk s.regmap (s.insts ++ [Inst.Transfer r0 r])
        State.mk (mapInsert name (r, n.insts.length - 1) n.regmap) n.insts := by
    simp [onOp, h1, h2]
  have hne : onOp s name (Op.Just v) ≠ [] := by
    rw [he]
    simp
  refine ⟨he, ?_, ?_, ?_⟩
  · have hdne : (onOp s name (Op.Just v)).dedup ≠ [] := by
      intro h0
      exact hne ((List.dedup_eq_nil _).mp h0)
    have : (onOp s name (Op.Just v)).dedup.length ≠ 0 := by
      simpa [List.length_eq_zero] using hdne
    omega
  · have h3 : (onOp s name (Op.Just v)).length = 3 := by
      rw [he]
      simp
    calc (onOp s name (Op.Just v)).dedup.length
        ≤ (onOp s name (Op.Just v)).length := (List.dedup_sublist _).length_le
      _ = 3 := h3
  · intro t ht
    rw [he] at ht
    simp only [List.mem_map] at ht
    obtain ⟨r, hr, rfl⟩ := ht
    refine ⟨r, by simpa using hr, ?_⟩
    exact mapLookup_mapInsert_self name _ _

/-- Witness for C2: value 0 resident in A at index 0 of
`[LoadConst A 5, LoadConst A 7]`; the second load clobbers A. -/
theorem onOp_clobbered_reuse_witness :
    mapLookup 0 (State.mk [(0, Reg.A, 0)]
        [Inst.LoadConst Reg.A 5, Inst.LoadConst Reg.A 7] : State Nat).regmap =
      some (Reg.A, 0) ∧
      sets_at (State.mk [(0, Reg.A, 0)]
        [Inst.LoadConst Reg.A 5, Inst.LoadConst Reg.A 7] : State Nat) 0 Reg.A = true ∧
      ∀ t ∈ onOp (State.mk [(0, Reg.A, 0)]
          [Inst.LoadConst Reg.A 5, Inst.LoadConst Reg.A 7] : State Nat) 7 (Op.Just 0),
        ∃ r, (r = Reg.A ∨ r = Reg.X ∨ r = Reg.Y) ∧
          mapLookup 7 t.regmap = some (r, t.insts.length - 1) :=
  ⟨by decide, by decide,
    (onOp_clobbered_reuse (State.mk [(0, Reg.A, 0)]
      [Inst.LoadConst Reg.A 5, Inst.LoadConst Reg.A 7] : State Nat) 7 0 Reg.A 0 (by decide)
      (by decide)).2.2.2⟩

/-- C10: under the Snapshot invariant, no branch of the transition function
ever emits a self-transfer: every `Transfer` in a successor that is not
already in the input has distinct source and target (the candidate register
equal to the holding register always satisfies the scan and takes the patch
path instead). -/
theorem onOp_no_self_transfer (s : State V) (name : V) (op : Op V)
    (hinv : InvariantB s = true) :
    ∀ t ∈ onOp s name op, ∀ f r : Reg,
      Inst.Transfer f r ∈ t.insts → Inst.Transfer f r ∈ s.insts ∨ f ≠ r := by
  intro t ht f r htr
  cases op with
  | Const a =>
    simp only [onOp, List.mem_map] at ht
    obtain ⟨r2, hr2, rfl⟩ := ht
    rcases List.mem_append.mp htr with h3 | h3
    · exact Or.inl h3
    · simp at h3
  | Just v =>
    rcases hlk : mapLookup v s.regmap with _ | q
    · simp only [onOp, hlk] at ht
      exact absurd ht (by simp)
    · obtain ⟨r0, i0⟩ := q
      have hok := (InvariantB_eq_true_iff s).mp hinv _ (mapLookup_mem hlk)
      obtain ⟨inst0, hsome0, hest0⟩ := entryOK_some hok
      have hi0 : i0 < s.insts.length := getElem?_some_lt hsome0
      by_cases hsets : sets_at s i0 r0 = true
      · simp only [onOp, hlk, hsets, if_true, List.mem_map] at ht
        obtain ⟨r2, hr2, rfl⟩ := ht
        by_cases hsr : sets_at s i0 r2 = true
        · simp only [hsr, if_true] at htr
          rw [add_patch_insts_eq s i0 r0 r2 (Nat.le_of_lt hi0)] at htr
          rcases List.mem_append.mp htr with h3 | h3
          · obtain ⟨x, hx, hbx⟩ := List.mem_map.mp h3
            have hx2 : x = Inst.Transfer f r := bumpStoreArg_eq_transfer hbx
            subst hx2
            exact Or.inl (List.take_subset _ _ hx)
          · rcases List.mem_cons.mp h3 with h4 | h4
            · exact absurd h4 (by simp)
            · rcases List.mem_append.mp h4 with h5 | h5
              · exact Or.inl (List.drop_subset _ _ h5)
              · simp at h5
        · simp only [hsr, if_false, Bool.false_eq_true] at htr
          rcases List.mem_append.mp htr with h3 | h3
          · exact Or.inl h3
          · have h4 : f = r0 ∧ r = r2 := by simpa using h3
            obtain ⟨rfl, rfl⟩ := h4
            refine Or.inr fun hfr => ?_
            subst hfr
            exact hsr hsets
      · simp only [onOp, hlk, hsets, if_false, Bool.false_eq_true] at ht
        have h4 : t = State.mk (mapInsert name (r0, i0) s.regmap) s.insts := by
          simpa using ht
        subst h4
        exact Or.inl htr

/-- Witness for C10 at the clobbered-A snapshot. -/
theorem onOp_no_self_transfer_witness :
    InvariantB (State.mk [(0, Reg.A, 0)]
        [Inst.LoadConst Reg.A 5, Inst.LoadConst Reg.A 7] : State Nat) = true ∧
      ∀ t ∈ onOp (State.mk [(0, Reg.A, 0)]
          [Inst.LoadConst Reg.A 5, Inst.LoadConst Reg.A 7] : State Nat) 2 (Op.Just 0),
        ∀ f r : Reg,
          Inst.Transfer f r ∈ t.insts →
            Inst.Transfer f r ∈ [Inst.LoadConst Reg.A 5, Inst.LoadConst Reg.A 7] ∨ f ≠ r :=
  ⟨by decide,
    onOp_no_self_transfer (State.mk [(0, Reg.A, 0)]
      [Inst.LoadConst Reg.A 5, Inst.LoadConst Reg.A 7] : State Nat) 2 (Op.Just 0) (by decide)⟩

/-- C1: the transition function preserves the Snapshot invariant: every
successor of an invariant-satisfying snapshot satisfies the invariant. -/
theorem onOp_preserves_invariant (s : State V) (name : V) (op : Op V)
    (hinv : InvariantB s = true) :
    ∀ t ∈ onOp s name op, InvariantB t = true := by
  intro t ht
  rw [InvariantB_eq_true_iff] at hinv
  rw [InvariantB_eq_true_iff]
  cases op with
  | Const a =>
    simp only [onOp, List.mem_map] at ht
    obtain ⟨r, hr, rfl⟩ := ht
    intro p hp
    rcases mem_mapInsert hp with rfl | hp2
    · have hc1 : (s.insts ++ [Inst.LoadConst r a])[(s.insts ++
          [Inst.LoadConst r a]).length - 1]? = some (Inst.LoadConst r a) := by
        rw [List.length_append]
        exact List.getElem?_concat_length s.insts _
      exact entryOK_intro hc1 (by simp [establishesB])
    · exact entryOK_append _ _ _ (hinv p hp2)
  | Just v =>
    rcases hlk : mapLookup v s.regmap with _ | q
    · simp only [onOp, hlk] at ht
      exact absurd ht (by simp)
    · obtain ⟨r0, i0⟩ := q
      have hok := hinv _ (mapLookup_mem hlk)
      obtain ⟨inst0, hsome0, hest0⟩ := entryOK_some hok
      have hi0 : i0 < s.insts.length := getElem?_some_lt hsome0
      by_cases hsets : sets_at s i0 r0 = true
      · simp only [onOp, hlk, hsets, if_true, List.mem_map] at ht
        obtain ⟨r, hr, rfl⟩ := ht
        by_cases hsr : sets_at s i0 r = true
        · simp only [hsr, if_true]
          intro p hp
          rcases mem_mapInsert hp with rfl | hp2
          · have hl1 : (add_patch s i0 r0 r).insts[(add_patch s i0 r0 r).insts.length - 1]? =
                some (Inst.LoadConst r 0) := by
              rw [add_patch_length s i0 r0 r (Nat.le_of_lt hi0)]
              exact add_patch_getElem_last s i0 r0 r (Nat.le_of_lt hi0)
            exact entryOK_intro hl1 (by simp [establishesB])
          · rw [add_patch_regmap] at hp2
            obtain ⟨p0, hp0, rfl⟩ := List.mem_map.mp hp2
            obtain ⟨inst1, hsome1, hest1⟩ := entryOK_some (hinv p0 hp0)
            have hlt1 : p0.2.2 < s.insts.length := getElem?_some_lt hsome1
            by_cases hge : i0 ≤ p0.2.2
            · rw [if_pos hge]
              have hl2 : (add_patch s i0 r0 r).insts[p0.2.2 + 1]? = some inst1 := by
                rw [add_patch_getElem_ge s i0 r0 r p0.2.2 (Nat.le_of_lt hi0) hge hlt1]
                exact hsome1
              exact entryOK_intro hl2 hest1
            · rw [if_neg hge]
              have hl3 : (add_patch s i0 r0 r).insts[p0.2.2]? =
                  some (bumpStoreArg inst1) := by
                rw [add_patch_getElem_lt s i0 r0 r p0.2.2 (Nat.le_of_lt hi0) (by omega),
                  hsome1]
                rfl
              exact entryOK_intro hl3 (by rw [establishesB_bump]; exact hest1)
        · simp only [hsr, if_false, Bool.false_eq_true]
          intro p hp
          rcases mem_mapInsert hp with rfl | hp2
          · have hc2 : (s.insts ++ [Inst.Transfer r0 r])[(s.insts ++
                [Inst.Transfer r0 r]).length - 1]? = some (Inst.Transfer r0 r) := by
              rw [List.length_append]
              exact List.getElem?_concat_length s.insts _
            exact entryOK_intro hc2 (by simp [establishesB])
          · exact entryOK_append _ _ _ (hinv p hp2)
      · simp only [onOp, hlk, hsets, if_false, Bool.false_eq_true] at ht
        have h4 : t = State.mk (mapInsert name (r0, i0) s.regmap) s.insts := by
          simpa using ht
        subst h4
        intro p hp
        rcases mem_mapInsert hp with rfl | hp2
        · exact entryOK_intro hsome0 hest0
        · exact hinv p hp2

/-- Witness for C1: the invariant-satisfying snapshot with value 0 resident
in A, stepped by a constant load. -/
theorem onOp_preserves_invariant_witness :
    InvariantB (State.mk [(0, Reg.A, 0)] [Inst.LoadConst Reg.A 5] : State Nat) = true ∧
      ∀ t ∈ onOp (State.mk [(0, Reg.A, 0)] [Inst.LoadConst Reg.A 5] : State Nat) 1
          (Op.Const 4),
        InvariantB t = true :=
  ⟨by decide,
    onOp_preserves_invariant (State.mk [(0, Reg.A, 0)] [Inst.LoadConst Reg.A 5] : State Nat)
      1 (Op.Const 4) (by decide)⟩

end Hopper65
